import Mathlib

/-!
Verification of the bounded worker-pool request-dispatch engine of the
fastgo repository (src/main.go) and its advanced variants
(src/ADVANCED_PATTERNS.md): worker pool, submission gateway, lifecycle
controller, metrics counters, circuit breaker and priority queue.

The Go code is shallowly embedded: goroutine interleavings are driven by
explicit scheduler commands, and Go's `select` statement, which picks
uniformly at random among ready cases, receives an explicit selector
argument resolving the choice when several cases are ready.
-/

namespace FastGo

/-- Identifier of an accepted job.  `Server.handleRequest` creates a fresh
result channel per submission, so jobs are identified by acceptance order
and "the job's result channel" is determined by the job id. -/
abbrev JobId := Nat

/-- State of the `WorkerPool` of src/main.go together with the per-job
result channels created in `Server.handleRequest`.

* `capacity`: buffer size of `jobQueue` (`make(chan Job, queueSize)`).
* `accepted`: number of jobs ever accepted into the queue; accepted jobs
  carry ids `0 .. accepted-1`.
* `queue`: current buffer content of the `jobQueue` channel, FIFO.
* `inFlight`: jobs dequeued by some worker whose result has not yet been
  written to the job's result channel.
* `results`: job ids in the order a `JobResult` was written to their
  result channel; `results.count j` is the number of writes ever made
  into job `j`'s channel.
* `cancelled`: whether `wp.ctx.Done()` has fired.
* `closed`: whether `close(wp.jobQueue)` has happened. -/
structure PoolState where
  capacity : Nat
  accepted : Nat
  queue : List JobId
  inFlight : List JobId
  results : List JobId
  cancelled : Bool
  closed : Bool
deriving Repr, DecidableEq

/-- `NewWorkerPool` (src/main.go:140-153): fresh context, empty buffered
channel of the given capacity. -/
def NewWorkerPool (queueSize : Nat) : PoolState :=
  { capacity := queueSize, accepted := 0, queue := [], inFlight := [],
    results := [], cancelled := false, closed := false }

/-- Outcome of a call to `WorkerPool.Submit`:  `ok` is the `nil` return,
`shuttingDown` the "worker pool is shutting down" error, `saturated` the
"worker queue is full" error; `panicked` models the Go runtime panic
raised by a send on a closed channel. -/
inductive SubmitOutcome
  | ok
  | shuttingDown
  | saturated
  | panicked
deriving Repr, DecidableEq

/-- Outcome of a call to `WorkerPool.Shutdown`: `panicked` models the Go
runtime panic raised by `close` of an already-closed channel. -/
inductive ShutdownOutcome
  | ok
  | panicked
deriving Repr, DecidableEq

namespace WorkerPool

/-- Readiness of the `wp.jobQueue <- job` case of the `select` in
`Submit`: a buffered send is ready when the buffer has room, and a send
on a closed channel is also ready (it proceeds by panicking). -/
def sendReady (s : PoolState) : Bool :=
  s.closed || decide (s.queue.length < s.capacity)

/-- Readiness of the `<-wp.ctx.Done()` case: the done channel is ready
exactly when the pool context has been cancelled. -/
def doneReady (s : PoolState) : Bool := s.cancelled

/-- Effect of `select` committing to the `wp.jobQueue <- job` case of
`Submit`: panic if the channel is closed, otherwise enqueue the job and
return `nil`. -/
def sendCase (s : PoolState) : SubmitOutcome × PoolState :=
  if s.closed then (.panicked, s)
  else (.ok, { s with queue := s.queue ++ [s.accepted], accepted := s.accepted + 1 })

/-- `WorkerPool.Submit` (src/main.go:215-224): a `select` over the queue
send, the done channel, and a `default` case.  `sel` resolves Go's
pseudo-random choice when both communication cases are ready (`true`
picks the send); with no ready case the `default` branch returns the
queue-full error. -/
def Submit (s : PoolState) (sel : Bool) : SubmitOutcome × PoolState :=
  if sendReady s && doneReady s then
    if sel then sendCase s else (.shuttingDown, s)
  else if sendReady s then sendCase s
  else if doneReady s then (.shuttingDown, s)
  else (.saturated, s)

/-- `WorkerPool.Shutdown` (src/main.go:227-233): `wp.cancel()` followed by
`close(wp.jobQueue)` and `wp.wg.Wait()`.  `cancel` on an already
cancelled context is a no-op, but `close` of an already-closed channel
panics before `wg.Wait()` is reached. -/
def Shutdown (s : PoolState) : ShutdownOutcome × PoolState :=
  if s.closed then (.panicked, { s with cancelled := true })
  else (.ok, { s with cancelled := true, closed := true })

/-- Cancellation of the parent context handed to `NewWorkerPool`
(fired by the signal handler in `main`, src/main.go): `wp.ctx` is derived
from it, so `wp.ctx.Done()` fires without the job queue being closed. -/
def cancelCtx (s : PoolState) : PoolState := { s with cancelled := true }

/-- The receiving `select` of `WorkerPool.worker` (src/main.go:168-177):
either `<-wp.ctx.Done()` (worker returns) or `job, ok := <-wp.jobQueue`.
`sel = true` picks the done case when both are ready.  A worker that
returns, or blocks on an empty open queue, leaves the pool state
unchanged; a dequeued job becomes in-flight in that worker. -/
def workerDequeue (s : PoolState) (sel : Bool) : PoolState :=
  if s.cancelled && sel then s
  else
    match s.queue with
    | [] => s
    | j :: rest => { s with queue := rest, inFlight := s.inFlight ++ [j] }

/-- The result-sending `select` of `WorkerPool.worker`
(src/main.go:181-188) executed by the worker holding the `k`-th in-flight
job after `processJob` returned: either `job.ResultCh <- result` or
return on `<-wp.ctx.Done()`.  `sel = false` together with cancellation
picks the done case, dropping the write. -/
def workerWrite (s : PoolState) (k : Nat) (sel : Bool) : PoolState :=
  match s.inFlight[k]? with
  | none => s
  | some j =>
    if s.cancelled && !sel then { s with inFlight := s.inFlight.eraseIdx k }
    else { s with inFlight := s.inFlight.eraseIdx k, results := s.results ++ [j] }

end WorkerPool

/-- One scheduler event of the pool: a `Submit` call by a request
handler, one of the two worker `select`s, cancellation of the parent
context, or a `Shutdown` call. -/
inductive PoolCmd
  | submit (sel : Bool)
  | dequeue (sel : Bool)
  | write (k : Nat) (sel : Bool)
  | cancel
  | shutdown
deriving Repr, DecidableEq

/-- Effect of one scheduler event on the pool state. -/
def PoolCmd.step (s : PoolState) : PoolCmd → PoolState
  | .submit sel => (WorkerPool.Submit s sel).2
  | .dequeue sel => WorkerPool.workerDequeue s sel
  | .write k sel => WorkerPool.workerWrite s k sel
  | .cancel => WorkerPool.cancelCtx s
  | .shutdown => (WorkerPool.Shutdown s).2

/-- Run a sequence of scheduler events. -/
def runPool (s : PoolState) (cmds : List PoolCmd) : PoolState :=
  cmds.foldl PoolCmd.step s

/-- All job ids currently recorded anywhere: written, in flight or
queued. -/
def PoolState.allJobs (s : PoolState) : List JobId :=
  s.results ++ s.inFlight ++ s.queue

/-- Structural invariant of every reachable pool state: no job id occurs
twice across results, in-flight set and queue, and every recorded id was
accepted. -/
def PoolInv (s : PoolState) : Prop :=
  s.allJobs.Nodup ∧ ∀ j ∈ s.allJobs, j < s.accepted

/-- Exact-accounting invariant of shutdown-free executions: the written,
in-flight and queued jobs together are exactly the accepted jobs, each
once. -/
def PoolExact (s : PoolState) : Prop :=
  s.cancelled = false ∧ s.closed = false ∧ s.allJobs.Perm (List.range s.accepted)

/-- The state after `Submit` accepted a job. -/
def WorkerPool.enqueued (s : PoolState) : PoolState :=
  { s with queue := s.queue ++ [s.accepted], accepted := s.accepted + 1 }

/-- The state after a worker dequeued the head job `j`. -/
def WorkerPool.dequeued (s : PoolState) (j : JobId) (rest : List JobId) : PoolState :=
  { s with queue := rest, inFlight := s.inFlight ++ [j] }

/-- The state after the worker holding in-flight job `k` dropped its
result write (cancellation chosen in the sending select). -/
def WorkerPool.dropped (s : PoolState) (k : Nat) : PoolState :=
  { s with inFlight := s.inFlight.eraseIdx k }

/-- The state after the worker holding in-flight job `k` (with id `j`)
wrote the result to `j`'s channel. -/
def WorkerPool.written (s : PoolState) (k : Nat) (j : JobId) : PoolState :=
  { s with inFlight := s.inFlight.eraseIdx k, results := s.results ++ [j] }

theorem submit_state_cases (s : PoolState) (sel : Bool) :
    (WorkerPool.Submit s sel).2 = s ∨
      (WorkerPool.Submit s sel).2 = WorkerPool.enqueued s := by
  unfold WorkerPool.Submit WorkerPool.sendCase
  split_ifs <;> simp [WorkerPool.enqueued]

theorem dequeue_state_cases (s : PoolState) (sel : Bool) :
    WorkerPool.workerDequeue s sel = s ∨
      ∃ j rest, s.queue = j :: rest ∧
        WorkerPool.workerDequeue s sel = WorkerPool.dequeued s j rest := by
  unfold WorkerPool.workerDequeue
  split_ifs
  · left; rfl
  · cases hq : s.queue with
    | nil => left; rfl
    | cons j rest => right; exact ⟨j, rest, rfl, rfl⟩

theorem write_state_cases (s : PoolState) (k : Nat) (sel : Bool) :
    WorkerPool.workerWrite s k sel = s ∨
      ∃ j, s.inFlight[k]? = some j ∧
        ((s.cancelled = true ∧ WorkerPool.workerWrite s k sel = WorkerPool.dropped s k) ∨
          WorkerPool.workerWrite s k sel = WorkerPool.written s k j) := by
  unfold WorkerPool.workerWrite
  cases hg : s.inFlight[k]? with
  | none => left; rfl
  | some j =>
    right
    refine ⟨j, rfl, ?_⟩
    split_ifs with hc
    · rw [Bool.and_eq_true] at hc
      exact Or.inl ⟨hc.1, rfl⟩
    · exact Or.inr rfl

theorem shutdown_state_cases (s : PoolState) :
    (WorkerPool.Shutdown s).2 = { s with cancelled := true } ∨
      (WorkerPool.Shutdown s).2 = { s with cancelled := true, closed := true } := by
  unfold WorkerPool.Shutdown
  split_ifs <;> simp

theorem eraseIdx_perm_of_getElem? {α : Type} (l : List α) (k : Nat) (j : α)
    (h : l[k]? = some j) : l.Perm (j :: l.eraseIdx k) := by
  induction l generalizing k with
  | nil => simp at h
  | cons a t ih =>
    cases k with
    | zero =>
      simp at h
      subst h
      simp
    | succ k =>
      simp only [List.getElem?_cons_succ] at h
      have h2 : (a :: t).Perm (a :: (j :: t.eraseIdx k)) := (ih k h).cons a
      have h3 : (a :: (j :: t.eraseIdx k)).Perm (j :: (a :: t.eraseIdx k)) :=
        List.Perm.swap j a (t.eraseIdx k)
      exact h2.trans h3

theorem allJobs_enqueued (s : PoolState) :
    (WorkerPool.enqueued s).allJobs = s.allJobs ++ [s.accepted] := by
  simp [WorkerPool.enqueued, PoolState.allJobs]

theorem allJobs_dequeued (s : PoolState) (j : JobId) (rest : List JobId)
    (hq : s.queue = j :: rest) :
    (WorkerPool.dequeued s j rest).allJobs = s.allJobs := by
  simp [WorkerPool.dequeued, PoolState.allJobs, hq]

theorem allJobs_written_perm (s : PoolState) (k : Nat) (j : JobId)
    (hg : s.inFlight[k]? = some j) :
    (WorkerPool.written s k j).allJobs.Perm s.allJobs := by
  have hper : s.inFlight.Perm (j :: s.inFlight.eraseIdx k) :=
    eraseIdx_perm_of_getElem? _ _ _ hg
  simp only [WorkerPool.written, PoolState.allJobs]
  have h1 : (s.results ++ [j] ++ s.inFlight.eraseIdx k ++ s.queue) =
      s.results ++ (j :: s.inFlight.eraseIdx k) ++ s.queue := by simp
  rw [h1]
  exact List.Perm.append_right s.queue (List.Perm.append_left s.results hper.symm)

theorem allJobs_dropped_sublist (s : PoolState) (k : Nat) :
    (WorkerPool.dropped s k).allJobs.Sublist s.allJobs := by
  simp only [WorkerPool.dropped, PoolState.allJobs]
  exact ((s.inFlight.eraseIdx_sublist k).append_left s.results).append_right s.queue

theorem poolInv_of_perm (s t : PoolState) (hp : t.allJobs.Perm s.allJobs)
    (ha : t.accepted = s.accepted) (h : PoolInv s) : PoolInv t := by
  obtain ⟨hnd, hlt⟩ := h
  exact ⟨hp.nodup_iff.mpr hnd, fun j hj => ha ▸ hlt j (hp.mem_iff.mp hj)⟩

theorem poolInv_step (s : PoolState) (c : PoolCmd) (h : PoolInv s) :
    PoolInv (PoolCmd.step s c) := by
  obtain ⟨hnd, hlt⟩ := h
  cases c with
  | submit sel =>
    rcases submit_state_cases s sel with he | he <;> simp only [PoolCmd.step, he]
    · exact ⟨hnd, hlt⟩
    · constructor
      · rw [allJobs_enqueued, List.nodup_append]
        refine ⟨hnd, List.nodup_singleton _, ?_⟩
        intro a ha hb
        simp only [List.mem_singleton] at hb
        subst hb
        exact absurd rfl (Nat.ne_of_lt (hlt _ ha))
      · intro j hj
        rw [allJobs_enqueued, List.mem_append] at hj
        rcases hj with hj | hj
        · exact Nat.lt_succ_of_lt (hlt j hj)
        · simp only [List.mem_singleton] at hj
          simp [WorkerPool.enqueued, hj]
  | dequeue sel =>
    rcases dequeue_state_cases s sel with he | ⟨j, rest, hq, he⟩ <;>
      simp only [PoolCmd.step, he]
    · exact ⟨hnd, hlt⟩
    · refine poolInv_of_perm s _ ?_ rfl ⟨hnd, hlt⟩
      rw [allJobs_dequeued s j rest hq]
  | write k sel =>
    rcases write_state_cases s k sel with he | ⟨j, hg, ⟨_, he⟩ | he⟩ <;>
      simp only [PoolCmd.step, he]
    · exact ⟨hnd, hlt⟩
    · have hsub := allJobs_dropped_sublist s k
      exact ⟨hsub.nodup hnd, fun x hx => hlt x (hsub.mem hx)⟩
    · exact poolInv_of_perm s _ (allJobs_written_perm s k j hg) rfl ⟨hnd, hlt⟩
  | cancel => exact ⟨hnd, hlt⟩
  | shutdown =>
    rcases shutdown_state_cases s with he | he <;> simp only [PoolCmd.step, he] <;>
      exact ⟨hnd, hlt⟩

theorem poolInv_runPool (s : PoolState) (cmds : List PoolCmd) (h : PoolInv s) :
    PoolInv (runPool s cmds) := by
  induction cmds generalizing s with
  | nil => exact h
  | cons c cs ih => exact ih _ (poolInv_step s c h)

theorem poolInv_init (cap : Nat) : PoolInv (NewWorkerPool cap) := by
  constructor <;> simp [NewWorkerPool, PoolState.allJobs]

theorem poolExact_step (s : PoolState) (c : PoolCmd) (hc : c ≠ PoolCmd.cancel)
    (hs : c ≠ PoolCmd.shutdown) (h : PoolExact s) : PoolExact (PoolCmd.step s c) := by
  obtain ⟨hca, hcl, hperm⟩ := h
  cases c with
  | submit sel =>
    rcases submit_state_cases s sel with he | he <;> simp only [PoolCmd.step, he]
    · exact ⟨hca, hcl, hperm⟩
    · refine ⟨hca, hcl, ?_⟩
      rw [allJobs_enqueued]
      have : (WorkerPool.enqueued s).accepted = s.accepted + 1 := rfl
      rw [this, List.range_succ]
      exact List.Perm.append_right [s.accepted] hperm
  | dequeue sel =>
    rcases dequeue_state_cases s sel with he | ⟨j, rest, hq, he⟩ <;>
      simp only [PoolCmd.step, he]
    · exact ⟨hca, hcl, hperm⟩
    · exact ⟨hca, hcl, by rw [allJobs_dequeued s j rest hq]; exact hperm⟩
  | write k sel =>
    rcases write_state_cases s k sel with he | ⟨j, hg, ⟨hcan, _⟩ | he⟩
    · simp only [PoolCmd.step, he]
      exact ⟨hca, hcl, hperm⟩
    · rw [hca] at hcan
      exact absurd hcan (by simp)
    · simp only [PoolCmd.step, he]
      exact ⟨hca, hcl, (allJobs_written_perm s k j hg).trans hperm⟩
  | cancel => exact absurd rfl hc
  | shutdown => exact absurd rfl hs

theorem poolExact_runPool (s : PoolState) (cmds : List PoolCmd)
    (hcmds : ∀ c ∈ cmds, c ≠ PoolCmd.cancel ∧ c ≠ PoolCmd.shutdown)
    (h : PoolExact s) : PoolExact (runPool s cmds) := by
  induction cmds generalizing s with
  | nil => exact h
  | cons c cs ih =>
    exact ih _ (fun d hd => hcmds d (List.mem_cons_of_mem c hd))
      (poolExact_step s c (hcmds c (List.mem_cons_self c cs)).1
        (hcmds c (List.mem_cons_self c cs)).2 h)

theorem poolExact_init (cap : Nat) : PoolExact (NewWorkerPool cap) := by
  refine ⟨rfl, rfl, ?_⟩
  simp [NewWorkerPool, PoolState.allJobs]

/-- Scheduler events that let the workers finish every outstanding job:
dequeue until the queue is empty, then write every in-flight result. -/
def drainCmds (s : PoolState) : List PoolCmd :=
  List.replicate s.queue.length (PoolCmd.dequeue false) ++
    List.replicate (s.inFlight.length + s.queue.length) (PoolCmd.write 0 false)

theorem workerDequeue_of_not_cancelled (s : PoolState) (sel : Bool) (j : JobId)
    (rest : List JobId) (h : s.cancelled = false) (hq : s.queue = j :: rest) :
    WorkerPool.workerDequeue s sel = WorkerPool.dequeued s j rest := by
  simp [WorkerPool.workerDequeue, h, hq, WorkerPool.dequeued]

theorem workerWrite_zero_of_not_cancelled (s : PoolState) (sel : Bool) (j : JobId)
    (rest : List JobId) (h : s.cancelled = false) (hf : s.inFlight = j :: rest) :
    WorkerPool.workerWrite s 0 sel = WorkerPool.written s 0 j := by
  simp [WorkerPool.workerWrite, h, hf, WorkerPool.written]

theorem drain_dequeues (n : Nat) : ∀ s : PoolState, s.cancelled = false →
    n = s.queue.length →
    runPool s (List.replicate n (PoolCmd.dequeue false)) =
      { s with queue := [], inFlight := s.inFlight ++ s.queue } := by
  induction n with
  | zero =>
    intro s hca hn
    obtain ⟨cap, acc, q, f, r, ca, cl⟩ := s
    have hq : q = [] := List.length_eq_zero.mp hn.symm
    subst hq
    simp [runPool]
  | succ n ih =>
    intro s hca hn
    cases hq : s.queue with
    | nil => rw [hq] at hn; simp at hn
    | cons j rest =>
      rw [List.replicate_succ]
      have hstep : PoolCmd.step s (PoolCmd.dequeue false) = WorkerPool.dequeued s j rest := by
        simp only [PoolCmd.step]
        exact workerDequeue_of_not_cancelled s false j rest hca hq
      have hlen : n = (WorkerPool.dequeued s j rest).queue.length := by
        rw [hq] at hn
        simpa [WorkerPool.dequeued] using Nat.succ_injective hn
      have := ih (WorkerPool.dequeued s j rest) (by simp [WorkerPool.dequeued, hca]) hlen
      simp only [runPool] at this ⊢
      rw [List.foldl_cons, hstep, this]
      simp [WorkerPool.dequeued, hq]

theorem drain_writes (n : Nat) : ∀ s : PoolState, s.cancelled = false →
    n = s.inFlight.length →
    runPool s (List.replicate n (PoolCmd.write 0 false)) =
      { s with inFlight := [], results := s.results ++ s.inFlight } := by
  induction n with
  | zero =>
    intro s hca hn
    obtain ⟨cap, acc, q, f, r, ca, cl⟩ := s
    have hf : f = [] := List.length_eq_zero.mp hn.symm
    subst hf
    simp [runPool]
  | succ n ih =>
    intro s hca hn
    cases hf : s.inFlight with
    | nil => rw [hf] at hn; simp at hn
    | cons j rest =>
      rw [List.replicate_succ]
      have hstep : PoolCmd.step s (PoolCmd.write 0 false) = WorkerPool.written s 0 j := by
        simp only [PoolCmd.step]
        exact workerWrite_zero_of_not_cancelled s false j rest hca hf
      have hwr : WorkerPool.written s 0 j =
          { s with inFlight := rest, results := s.results ++ [j] } := by
        simp [WorkerPool.written, hf]
      have hlen : n = ({ s with inFlight := rest, results := s.results ++ [j] } :
          PoolState).inFlight.length := by
        rw [hf] at hn
        simpa using Nat.succ_injective hn
      have := ih _ (by simp [hca]) hlen
      simp only [runPool] at this ⊢
      rw [List.foldl_cons, hstep, hwr, this]
      simp [hf]

theorem drain_full (s : PoolState) (hca : s.cancelled = false) :
    runPool s (drainCmds s) =
      { s with queue := [], inFlight := [], results := s.allJobs } := by
  have h1 := drain_dequeues s.queue.length s hca rfl
  have h2 : (s.inFlight.length + s.queue.length) =
      ({ s with queue := [], inFlight := s.inFlight ++ s.queue } :
        PoolState).inFlight.length := by simp
  have h3 := drain_writes (s.inFlight.length + s.queue.length)
    { s with queue := [], inFlight := s.inFlight ++ s.queue } (by simp [hca]) h2
  simp only [drainCmds, runPool] at h1 h3 ⊢
  rw [List.foldl_append, h1, h3]
  simp [PoolState.allJobs]

theorem results_sublist_allJobs (s : PoolState) : s.results.Sublist s.allJobs := by
  simp only [PoolState.allJobs]
  exact (List.sublist_append_left s.results s.inFlight).trans
    (List.sublist_append_left (s.results ++ s.inFlight) s.queue)

theorem results_count_le_one (s : PoolState) (h : PoolInv s) (j : JobId) :
    s.results.count j ≤ 1 :=
  List.nodup_iff_count_le_one.mp ((results_sublist_allJobs s).nodup h.1) j

/-- C1: in every shutdown-free execution of the pool, each accepted job's
result channel receives at most one `JobResult` ever, and once the
workers drain the outstanding jobs, each accepted job's channel has
received exactly one `JobResult`: no accepted job is dropped and no
channel sees two results.  (The theorem needs no bound on the submission
rate: a `Submit` that finds the queue at capacity rejects the job, which
is then not accepted.) -/
theorem C1_accepted_jobs_get_exactly_one_result (cap : Nat) (cmds : List PoolCmd)
    (h : ∀ c ∈ cmds, c ≠ PoolCmd.cancel ∧ c ≠ PoolCmd.shutdown) :
    (∀ j : JobId, (runPool (NewWorkerPool cap) cmds).results.count j ≤ 1) ∧
    (∀ j < (runPool (NewWorkerPool cap) cmds).accepted,
      (runPool (runPool (NewWorkerPool cap) cmds)
          (drainCmds (runPool (NewWorkerPool cap) cmds))).results.count j = 1) := by
  have hex := poolExact_runPool _ cmds h (poolExact_init cap)
  have hinv := poolInv_runPool (NewWorkerPool cap) cmds (poolInv_init cap)
  set s := runPool (NewWorkerPool cap) cmds with hs
  obtain ⟨hca, hcl, hperm⟩ := hex
  refine ⟨fun j => results_count_le_one s hinv j, fun j hj => ?_⟩
  rw [drain_full s hca]
  show s.allJobs.count j = 1
  rw [hperm.count_eq]
  exact List.count_eq_one_of_mem (List.nodup_range _) (List.mem_range.mpr hj)

theorem C1_accepted_jobs_get_exactly_one_result_witness :
    (∀ c ∈ [PoolCmd.submit true, PoolCmd.submit true, PoolCmd.dequeue false,
        PoolCmd.write 0 false],
      c ≠ PoolCmd.cancel ∧ c ≠ PoolCmd.shutdown) ∧
    ((∀ j : JobId, (runPool (NewWorkerPool 2) [PoolCmd.submit true, PoolCmd.submit true,
        PoolCmd.dequeue false, PoolCmd.write 0 false]).results.count j ≤ 1) ∧
    (∀ j < (runPool (NewWorkerPool 2) [PoolCmd.submit true, PoolCmd.submit true,
        PoolCmd.dequeue false, PoolCmd.write 0 false]).accepted,
      (runPool (runPool (NewWorkerPool 2) [PoolCmd.submit true, PoolCmd.submit true,
          PoolCmd.dequeue false, PoolCmd.write 0 false])
        (drainCmds (runPool (NewWorkerPool 2) [PoolCmd.submit true, PoolCmd.submit true,
          PoolCmd.dequeue false, PoolCmd.write 0 false]))).results.count j = 1)) :=
  ⟨by decide, C1_accepted_jobs_get_exactly_one_result 2 [PoolCmd.submit true,
    PoolCmd.submit true, PoolCmd.dequeue false, PoolCmd.write 0 false] (by decide)⟩

/-- C2 counterexample: once the parent context has been cancelled (the
signal handler fired) but before the queue is closed, a `Submit` call
whose `select` picks the ready send case enqueues the job and returns
`nil` — contradicting "after cancellation Submit always fails and never
enqueues". -/
theorem C2_submit_after_cancel_can_enqueue :
    (WorkerPool.cancelCtx (NewWorkerPool 4)).cancelled = true ∧
    (WorkerPool.Submit (WorkerPool.cancelCtx (NewWorkerPool 4)) true).1 =
      SubmitOutcome.ok ∧
    (WorkerPool.Submit (WorkerPool.cancelCtx (NewWorkerPool 4)) true).2.queue = [0] := by
  decide

/-- C2 amended: while the queue is not closed, `Submit` never blocks and
behaves as follows.  Without cancellation it enqueues and returns `nil`
when the queue is below capacity and returns the queue-full error
(`PoolSaturated`) when the queue is at capacity.  After cancellation it
returns the shutting-down error (`PoolShuttingDown`) when the queue is at
capacity; when the queue still has room, Go's `select` chooses between
the ready send and the fired done channel, so `Submit` either returns
`PoolShuttingDown` or enqueues the job and returns `nil`. -/
theorem C2_submit_contract (s : PoolState) (sel : Bool) (h : s.closed = false) :
    (s.cancelled = false → s.queue.length < s.capacity →
      WorkerPool.Submit s sel = (SubmitOutcome.ok, WorkerPool.enqueued s)) ∧
    (s.cancelled = false → s.capacity ≤ s.queue.length →
      WorkerPool.Submit s sel = (SubmitOutcome.saturated, s)) ∧
    (s.cancelled = true → s.capacity ≤ s.queue.length →
      WorkerPool.Submit s sel = (SubmitOutcome.shuttingDown, s)) ∧
    (s.cancelled = true → s.queue.length < s.capacity →
      WorkerPool.Submit s sel = (SubmitOutcome.shuttingDown, s) ∨
        WorkerPool.Submit s sel = (SubmitOutcome.ok, WorkerPool.enqueued s)) := by
  refine ⟨fun h1 h2 => ?_, fun h1 h2 => ?_, fun h1 h2 => ?_, fun h1 h2 => ?_⟩
  · simp [WorkerPool.Submit, WorkerPool.sendReady, WorkerPool.doneReady,
      WorkerPool.sendCase, WorkerPool.enqueued, h, h1, h2]
  · simp [WorkerPool.Submit, WorkerPool.sendReady, WorkerPool.doneReady,
      WorkerPool.sendCase, h, h1, Nat.not_lt.mpr h2]
  · simp [WorkerPool.Submit, WorkerPool.sendReady, WorkerPool.doneReady,
      WorkerPool.sendCase, h, h1, Nat.not_lt.mpr h2]
  · cases sel with
    | false =>
      left
      simp [WorkerPool.Submit, WorkerPool.sendReady, WorkerPool.doneReady,
        WorkerPool.sendCase, h, h1, h2]
    | true =>
      right
      simp [WorkerPool.Submit, WorkerPool.sendReady, WorkerPool.doneReady,
        WorkerPool.sendCase, WorkerPool.enqueued, h, h1, h2]

theorem C2_submit_contract_witness :
    (NewWorkerPool 4).closed = false ∧
    (((NewWorkerPool 4).cancelled = false → (NewWorkerPool 4).queue.length < (NewWorkerPool 4).capacity →
      WorkerPool.Submit (NewWorkerPool 4) true =
        (SubmitOutcome.ok, WorkerPool.enqueued (NewWorkerPool 4))) ∧
    ((NewWorkerPool 4).cancelled = false → (NewWorkerPool 4).capacity ≤ (NewWorkerPool 4).queue.length →
      WorkerPool.Submit (NewWorkerPool 4) true = (SubmitOutcome.saturated, NewWorkerPool 4)) ∧
    ((NewWorkerPool 4).cancelled = true → (NewWorkerPool 4).capacity ≤ (NewWorkerPool 4).queue.length →
      WorkerPool.Submit (NewWorkerPool 4) true = (SubmitOutcome.shuttingDown, NewWorkerPool 4)) ∧
    ((NewWorkerPool 4).cancelled = true → (NewWorkerPool 4).queue.length < (NewWorkerPool 4).capacity →
      WorkerPool.Submit (NewWorkerPool 4) true = (SubmitOutcome.shuttingDown, NewWorkerPool 4) ∨
        WorkerPool.Submit (NewWorkerPool 4) true =
          (SubmitOutcome.ok, WorkerPool.enqueued (NewWorkerPool 4)))) :=
  ⟨rfl, C2_submit_contract (NewWorkerPool 4) true rfl⟩

/-- C3: after `Shutdown` has closed the job queue, a `Submit` call whose
`select` commits to the (ready) send case performs a send on a closed
channel, which panics — the code does not treat a push to the closed
queue as a definitive rejection, contradicting the safety claim. -/
theorem C3_submit_after_shutdown_panics :
    (WorkerPool.Shutdown (NewWorkerPool 4)).2.closed = true ∧
    (WorkerPool.Submit (WorkerPool.Shutdown (NewWorkerPool 4)).2 true).1 =
      SubmitOutcome.panicked := by
  decide

/-- C4: the first `Shutdown` call on a fresh pool succeeds, but a second
call reaches `close(wp.jobQueue)` with the channel already closed and
panics — re-invocation is not a safe no-op. -/
theorem C4_second_shutdown_panics :
    (WorkerPool.Shutdown (NewWorkerPool 4)).1 = ShutdownOutcome.ok ∧
    (WorkerPool.Shutdown (WorkerPool.Shutdown (NewWorkerPool 4)).2).1 =
      ShutdownOutcome.panicked := by
  decide

/-- Buffer capacity of the per-job result channel:
`resultCh := make(chan JobResult, 1)` in `Server.handleRequest`
(src/main.go:254). -/
def resultChCapacity : Nat := 1

/-- C6: in every execution (shutdown included), a job's result channel
receives at most `resultChCapacity = 1` writes, and whenever a worker is
about to write a result, the channel buffer holds strictly fewer than
`resultChCapacity` items — so the buffered send never blocks, even when
the submitting handler has timed out and stopped reading. -/
theorem C6_result_channel_single_write_nonblocking (cap : Nat) (cmds : List PoolCmd)
    (j : JobId) :
    (runPool (NewWorkerPool cap) cmds).results.count j ≤ resultChCapacity ∧
    (∀ c : PoolCmd,
      (runPool (NewWorkerPool cap) cmds).results.count j <
          (PoolCmd.step (runPool (NewWorkerPool cap) cmds) c).results.count j →
      (runPool (NewWorkerPool cap) cmds).results.count j < resultChCapacity) := by
  have hinv := poolInv_runPool (NewWorkerPool cap) cmds (poolInv_init cap)
  set s := runPool (NewWorkerPool cap) cmds with hs
  refine ⟨results_count_le_one s hinv j, fun c hc => ?_⟩
  have h2 : (PoolCmd.step s c).results.count j ≤ 1 :=
    results_count_le_one _ (poolInv_step s c hinv) j
  show s.results.count j < 1
  omega

/-- `sync.WaitGroup.Wait` as invoked by `WorkerPool.Shutdown`
(`wp.wg.Wait()`, src/main.go:231): it returns exactly when the counter of
live workers has reached zero.  The code attaches no timer, deadline or
context to this wait, so the time elapsed since `Shutdown` began does not
enter the return condition. -/
def shutdownJoinReturned (aliveWorkers elapsedNs : Nat) : Bool :=
  aliveWorkers == 0

/-- `Configuration.ShutdownTimeout` from `NewConfiguration`
(src/main.go: `ShutdownTimeout: 30 * time.Second`), in nanoseconds.  In
`Server.Start` it bounds only `server.ShutdownWithContext` for the HTTP
listener; `workerPool.Shutdown()` runs after it with no bound. -/
def shutdownTimeoutNs : Nat := 30 * 1000000000

/-- Modelled from the spec: "blocks the caller until every worker's
completion is observed ... bounded by an externally supplied shutdown
timeout; if workers fail to exit before the timeout the controller must
still return".  The spec-described join returns when all workers are done
or the shutdown timeout has elapsed. -/
def shutdownJoinReturnedSpec (aliveWorkers elapsedNs : Nat) : Bool :=
  aliveWorkers == 0 || decide (shutdownTimeoutNs ≤ elapsedNs)

/-- C5 counterexample: with one worker still alive past the 30 s shutdown
timeout, the spec-described join would have returned, but the code's
`wg.Wait()`-based `Shutdown` has not — the claim's timeout bound is false
of the code. -/
theorem C5_join_ignores_timeout :
    shutdownJoinReturnedSpec 1 (shutdownTimeoutNs + 1) = true ∧
    shutdownJoinReturned 1 (shutdownTimeoutNs + 1) = false := by
  constructor
  · simp [shutdownJoinReturnedSpec]
  · rfl

/-- C5 amended: `WorkerPool.Shutdown` blocks until every worker's
completion is observed, with no timeout bound: the join returns exactly
when the live-worker count is zero, and in particular not at any time —
however far past the configured `ShutdownTimeout` — while a worker is
still alive.  Consequently, once `Shutdown` returns, no worker remains
runnable. -/
theorem C5_shutdown_joins_all_workers_unbounded (aliveWorkers elapsedNs : Nat) :
    (shutdownJoinReturned aliveWorkers elapsedNs = true ↔ aliveWorkers = 0) ∧
    shutdownJoinReturned (aliveWorkers + 1) (shutdownTimeoutNs + elapsedNs) = false := by
  constructor
  · simp [shutdownJoinReturned]
  · simp [shutdownJoinReturned]

/-- Outcome of calling a Go function: a normal return or a runtime panic
propagating to the caller. -/
inductive GoOutcome (α : Type)
  | ok (val : α)
  | panicked (msg : String)
deriving Repr, DecidableEq

/-- The payload `processJob` builds for a job (src/main.go:203-210). -/
structure ProcessedData where
  requestId : String
  processed : Bool
  timestamp : Nat
deriving Repr, DecidableEq

/-- `JobResult` (src/main.go:62-65): payload plus error indicator
(`error` is `none` for Go's `nil`). -/
structure JobResult where
  data : Option ProcessedData
  error : Option String
deriving Repr, DecidableEq

/-- `WorkerPool.processJob` (src/main.go:194-212): sleeps, then returns a
fixed success payload with `Error: nil`.  It contains no failing path. -/
def processJob (requestId : String) (nowUnix : Nat) : JobResult :=
  { data := some { requestId := requestId, processed := true, timestamp := nowUnix },
    error := none }

/-- One iteration of the job-handling branch of `WorkerPool.worker`
(src/main.go:177-188), parameterized by the outcome of the work-function
call `result := wp.processJob(job)`.  The worker body contains no
`defer`/`recover`, so a panic raised inside the work function propagates
out of `worker` (terminating the loop, and with it the process); a normal
return is forwarded unchanged — error field included — to the job's
result channel and the loop continues.  The returned pair is
(loop continues, result written to the channel). -/
def workerIter (outcome : GoOutcome JobResult) : GoOutcome (Bool × Option JobResult) :=
  match outcome with
  | .panicked msg => .panicked msg
  | .ok r => .ok (true, some r)

/-- Whether the worker loop is still running after handling one job. -/
def loopContinues (o : GoOutcome (Bool × Option JobResult)) : Bool :=
  match o with
  | .ok (b, _) => b
  | .panicked _ => false

/-- C7 counterexample: a work function that panics is not captured — the
panic propagates out of the worker loop, so the loop does not continue
and no `JobResult` carrying the error is produced. -/
theorem C7_panic_escapes_worker :
    loopContinues (workerIter (GoOutcome.panicked "boom")) = false ∧
    workerIter (GoOutcome.panicked "boom") = GoOutcome.panicked "boom" := by
  decide

/-- C7 amended: a failure reported as an error value inside the
`JobResult` is delivered per-job — the worker forwards the result, error
included, and continues looping; but a panic in the work function is not
captured: it propagates and terminates the worker loop.  The repository's
work function `processJob` itself never fails: it always returns a
`JobResult` with a `nil` error. -/
theorem C7_error_results_forwarded_panics_propagate :
    (∀ r : JobResult, workerIter (GoOutcome.ok r) = GoOutcome.ok (true, some r) ∧
      loopContinues (workerIter (GoOutcome.ok r)) = true) ∧
    (∀ msg : String, workerIter (GoOutcome.panicked msg) = GoOutcome.panicked msg) ∧
    (∀ requestId : String, ∀ nowUnix : Nat,
      (processJob requestId nowUnix).error = none) := by
  refine ⟨fun r => ⟨rfl, rfl⟩, fun msg => rfl, fun requestId nowUnix => rfl⟩

/-- Two's-complement wrap of Go's `int64` arithmetic:
`9223372036854775808 = 2 ^ 63` and `18446744073709551616 = 2 ^ 64`.
`atomic.AddInt64` wraps on overflow. -/
def wrap64 (x : Int) : Int :=
  (x + 9223372036854775808) % 18446744073709551616 - 9223372036854775808

/-- The four `int64` counters of `Metrics` (src/main.go:37-45); the
`startTime` and mutex fields play no role in the counter claims. -/
structure Metrics where
  activeConnections : Int
  totalRequests : Int
  completedRequests : Int
  errorCount : Int
deriving Repr, DecidableEq

/-- `NewMetrics` (src/main.go:90-94): all counters start at zero. -/
def NewMetrics : Metrics :=
  { activeConnections := 0, totalRequests := 0, completedRequests := 0, errorCount := 0 }

/-- `Metrics.IncrementActive` (src/main.go:98-101). -/
def Metrics.IncrementActive (m : Metrics) : Metrics :=
  { m with activeConnections := wrap64 (m.activeConnections + 1),
           totalRequests := wrap64 (m.totalRequests + 1) }

/-- `Metrics.DecrementActive` (src/main.go:104-107). -/
def Metrics.DecrementActive (m : Metrics) : Metrics :=
  { m with activeConnections := wrap64 (m.activeConnections - 1),
           completedRequests := wrap64 (m.completedRequests + 1) }

/-- `Metrics.IncrementErrors` (src/main.go:110-112). -/
def Metrics.IncrementErrors (m : Metrics) : Metrics :=
  { m with errorCount := wrap64 (m.errorCount + 1) }

/-- A call to one of the three counter mutators. -/
inductive MetricsOp
  | incActive
  | decActive
  | incErrors
deriving Repr, DecidableEq

def MetricsOp.apply (m : Metrics) : MetricsOp → Metrics
  | .incActive => m.IncrementActive
  | .decActive => m.DecrementActive
  | .incErrors => m.IncrementErrors

def runMetrics (m : Metrics) (ops : List MetricsOp) : Metrics :=
  ops.foldl MetricsOp.apply m

theorem wrap64_add_left (a b : Int) : wrap64 (wrap64 a + b) = wrap64 (a + b) := by
  unfold wrap64
  omega

theorem wrap64_add_right (a b : Int) : wrap64 (a + wrap64 b) = wrap64 (a + b) := by
  unfold wrap64
  omega

/-- The counter equation, as evaluated in `int64` arithmetic. -/
def MetricsInv (m : Metrics) : Prop :=
  m.totalRequests = wrap64 (m.activeConnections + m.completedRequests)

theorem metricsInv_apply (m : Metrics) (op : MetricsOp) (h : MetricsInv m) :
    MetricsInv (MetricsOp.apply m op) := by
  cases op with
  | incActive =>
    show wrap64 (m.totalRequests + 1) =
      wrap64 (wrap64 (m.activeConnections + 1) + m.completedRequests)
    rw [h, wrap64_add_left, wrap64_add_left]
    ring_nf
  | decActive =>
    show m.totalRequests =
      wrap64 (wrap64 (m.activeConnections - 1) + wrap64 (m.completedRequests + 1))
    rw [h, wrap64_add_left, wrap64_add_right]
    ring_nf
  | incErrors => exact h

/-- C10: starting from a fresh `Metrics`, after any sequence of
`IncrementActive`, `DecrementActive` and `IncrementErrors` calls the
`int64` counter equation
`totalRequests = activeConnections + completedRequests` holds:
`IncrementActive` raises both active and total, `DecrementActive` moves
one unit from active to completed, and `IncrementErrors` touches
neither. -/
theorem C10_metrics_counter_equation (ops : List MetricsOp) :
    (runMetrics NewMetrics ops).totalRequests =
      wrap64 ((runMetrics NewMetrics ops).activeConnections +
        (runMetrics NewMetrics ops).completedRequests) := by
  have hbase : MetricsInv NewMetrics := by
    show (0 : Int) = wrap64 (0 + 0)
    decide
  have : ∀ m : Metrics, MetricsInv m → MetricsInv (runMetrics m ops) := by
    induction ops with
    | nil => exact fun m h => h
    | cons op rest ih => exact fun m h => ih _ (metricsInv_apply m op h)
  exact this NewMetrics hbase

/-- `CircuitState` (src/ADVANCED_PATTERNS.md): `StateClosed`, `StateOpen`
(`opened` here, since `open` is reserved), `StateHalfOpen`. -/
inductive CBState
  | closed
  | opened
  | halfOpen
deriving Repr, DecidableEq

/-- `CircuitBreaker` (src/ADVANCED_PATTERNS.md): configuration plus
mutable state; all `Execute` calls are serialized by the mutex, so the
embedding is a sequential state machine.  Times are in nanoseconds. -/
structure CircuitBreaker where
  maxFailures : Nat
  resetTimeoutNs : Nat
  state : CBState
  failures : Nat
  lastFailTimeNs : Nat
deriving Repr, DecidableEq

/-- `NewCircuitBreaker`: starts `Closed` with zero failures and the zero
time as `lastFailTime`. -/
def NewCircuitBreaker (mf rt : Nat) : CircuitBreaker :=
  { maxFailures := mf, resetTimeoutNs := rt, state := .closed,
    failures := 0, lastFailTimeNs := 0 }

/-- Return value of `CircuitBreaker.Execute`: the "circuit breaker is
open" error, the wrapped function's error, or `nil`. -/
inductive CBOutcome
  | circuitOpenErr
  | fnErr
  | fnOk
deriving Repr, DecidableEq

/-- `CircuitBreaker.Execute` (src/ADVANCED_PATTERNS.md).  `nowNs` is the
current time (used for `time.Since(cb.lastFailTime)` and `time.Now()`),
`fnFails` the outcome the wrapped `fn` would produce.  The last component
records whether `fn` was invoked. -/
def CircuitBreaker.Execute (cb : CircuitBreaker) (nowNs : Nat) (fnFails : Bool) :
    CBOutcome × CircuitBreaker × Bool :=
  let gate : Option CircuitBreaker :=
    if cb.state = .opened then
      if cb.resetTimeoutNs < nowNs - cb.lastFailTimeNs then
        some { cb with state := .halfOpen, failures := 0 }
      else none
    else some cb
  match gate with
  | none => (.circuitOpenErr, cb, false)
  | some cb1 =>
    if fnFails then
      (.fnErr,
        { cb1 with
            failures := cb1.failures + 1, lastFailTimeNs := nowNs,
            state := if cb1.maxFailures ≤ cb1.failures + 1 then .opened else cb1.state },
        true)
    else
      (.fnOk,
        { cb1 with
            state := if cb1.state = .halfOpen then .closed else cb1.state,
            failures := 0 },
        true)

/-- One failing call: the state `Execute` leaves behind when `fn` errors. -/
def execFail (cb : CircuitBreaker) (nowNs : Nat) : CircuitBreaker :=
  (CircuitBreaker.Execute cb nowNs true).2.1

/-- A sequence of failing calls at the given times. -/
def failRun (cb : CircuitBreaker) (times : List Nat) : CircuitBreaker :=
  times.foldl execFail cb

theorem execFail_from_closed (mf rt k last t : Nat) :
    execFail { maxFailures := mf, resetTimeoutNs := rt, state := .closed,
               failures := k, lastFailTimeNs := last } t =
      { maxFailures := mf, resetTimeoutNs := rt,
        state := if mf ≤ k + 1 then .opened else .closed,
        failures := k + 1, lastFailTimeNs := t } := by
  simp [execFail, CircuitBreaker.Execute]

theorem failRun_from_closed (ts : List Nat) : ∀ (mf rt k last : Nat),
    k + ts.length ≤ mf →
    failRun { maxFailures := mf, resetTimeoutNs := rt, state := .closed,
              failures := k, lastFailTimeNs := last } ts =
      { maxFailures := mf, resetTimeoutNs := rt,
        state := if k + ts.length = mf ∧ ts.length ≠ 0 then .opened else .closed,
        failures := k + ts.length,
        lastFailTimeNs := ts.foldl (fun _ t => t) last } := by
  induction ts with
  | nil =>
    intro mf rt k last h
    simp [failRun]
  | cons t rest ih =>
    intro mf rt k last h
    simp only [failRun, List.foldl_cons, List.length_cons] at ih h ⊢
    rw [execFail_from_closed]
    rcases Nat.lt_or_ge (k + 1) mf with hk | hk
    · rw [if_neg (by omega : ¬ mf ≤ k + 1)]
      rw [ih mf rt (k + 1) t (by omega)]
      have hstate : (if k + 1 + rest.length = mf ∧ rest.length ≠ 0 then CBState.opened
            else CBState.closed) =
          (if k + (rest.length + 1) = mf ∧ rest.length + 1 ≠ 0 then CBState.opened
            else CBState.closed) := by
        by_cases hS : k + (rest.length + 1) = mf
        · rw [if_pos ⟨by omega, by omega⟩, if_pos ⟨hS, by omega⟩]
        · rw [if_neg (by rintro ⟨h1, h2⟩; omega), if_neg (by rintro ⟨h1, h2⟩; omega)]
      rw [hstate]
      rw [show k + 1 + rest.length = k + (rest.length + 1) by omega]
    · have hrest : rest = [] := List.length_eq_zero.mp (by omega)
      subst hrest
      simp only [List.foldl_nil, List.length_nil, Nat.zero_add]
      rw [if_pos (by omega : mf ≤ k + 1), if_pos ⟨by omega, by omega⟩]

/-- C8 counterexample: with `maxFailures = 2` and `resetTimeout = 100`,
two failing calls (at times 0 and 1) open the breaker; a call at time 50
(within the timeout) is rejected without invoking `fn` — that much
holds — but a failing trial at time 200 leaves the breaker in `HalfOpen`
with one recorded failure, not `Open` as the claim states, and the very
next call invokes the wrapped function instead of being rejected. -/
theorem C8_failing_trial_leaves_halfOpen :
    (failRun (NewCircuitBreaker 2 100) [0, 1]).state = CBState.opened ∧
    (CircuitBreaker.Execute (failRun (NewCircuitBreaker 2 100) [0, 1]) 50 true).1 =
      CBOutcome.circuitOpenErr ∧
    (CircuitBreaker.Execute (failRun (NewCircuitBreaker 2 100) [0, 1]) 200 true).2.1.state =
      CBState.halfOpen ∧
    (CircuitBreaker.Execute (failRun (NewCircuitBreaker 2 100) [0, 1]) 200 true).2.1.state ≠
      CBState.opened ∧
    (CircuitBreaker.Execute
      (CircuitBreaker.Execute (failRun (NewCircuitBreaker 2 100) [0, 1]) 200 true).2.1
      201 true).2.2 = true := by
  decide

/-- C8 amended: `CircuitBreaker.Execute` satisfies this contract.  While
the breaker is `Open` and at most `resetTimeout` has elapsed since the
last failure, a call is rejected with the circuit-open error without
invoking the wrapped function and without changing the breaker.  From a
fresh breaker, `maxFailures` consecutive failing calls leave it `Open`
with `maxFailures` recorded failures.  Once strictly more than
`resetTimeout` has elapsed since the last failure, the next call runs as
a trial (`HalfOpen`): a successful trial returns the breaker to `Closed`;
a failing trial records one failure and leaves the breaker `HalfOpen`
(it reopens immediately only when `maxFailures ≤ 1`), so the breaker does
not return to `Open` until failures again reach `maxFailures`. -/
theorem C8_circuit_breaker_contract :
    (∀ (cb : CircuitBreaker) (now : Nat) (fb : Bool), cb.state = CBState.opened →
      now - cb.lastFailTimeNs ≤ cb.resetTimeoutNs →
      CircuitBreaker.Execute cb now fb = (CBOutcome.circuitOpenErr, cb, false)) ∧
    (∀ (mf rt : Nat) (ts : List Nat), ts.length = mf → mf ≠ 0 →
      (failRun (NewCircuitBreaker mf rt) ts).state = CBState.opened ∧
      (failRun (NewCircuitBreaker mf rt) ts).failures = mf) ∧
    (∀ (cb : CircuitBreaker) (now : Nat), cb.state = CBState.opened →
      cb.resetTimeoutNs < now - cb.lastFailTimeNs →
      CircuitBreaker.Execute cb now false =
        (CBOutcome.fnOk, { cb with state := CBState.closed, failures := 0 }, true) ∧
      CircuitBreaker.Execute cb now true =
        (CBOutcome.fnErr,
          { cb with
              state := if cb.maxFailures ≤ 1 then CBState.opened else CBState.halfOpen,
              failures := 1, lastFailTimeNs := now },
          true)) := by
  refine ⟨fun cb now fb h1 h2 => ?_, fun mf rt ts hts hmf => ?_, fun cb now h1 h2 => ?_⟩
  · simp [CircuitBreaker.Execute, h1, Nat.not_lt.mpr h2]
  · have h0 := failRun_from_closed ts mf rt 0 0 (by omega)
    have hnew : NewCircuitBreaker mf rt =
        { maxFailures := mf, resetTimeoutNs := rt, state := .closed,
          failures := 0, lastFailTimeNs := 0 } := rfl
    rw [hnew, h0]
    constructor
    · rw [if_pos ⟨by omega, by omega⟩]
    · show 0 + ts.length = mf
      omega
  · obtain ⟨mf, rt, st, f, lt⟩ := cb
    simp only at h1 h2
    subst h1
    constructor
    · simp [CircuitBreaker.Execute, h2]
    · simp [CircuitBreaker.Execute, h2]

theorem C8_circuit_breaker_contract_witness :
    (CircuitBreaker.Execute ⟨2, 100, CBState.opened, 2, 1⟩ 50 true =
      (CBOutcome.circuitOpenErr, ⟨2, 100, CBState.opened, 2, 1⟩, false)) ∧
    ((failRun (NewCircuitBreaker 3 100) [5, 6, 7]).state = CBState.opened ∧
      (failRun (NewCircuitBreaker 3 100) [5, 6, 7]).failures = 3) ∧
    (CircuitBreaker.Execute ⟨2, 100, CBState.opened, 2, 1⟩ 200 false =
      (CBOutcome.fnOk, ⟨2, 100, CBState.closed, 0, 1⟩, true)) :=
  ⟨C8_circuit_breaker_contract.1 ⟨2, 100, CBState.opened, 2, 1⟩ 50 true rfl (by decide),
   C8_circuit_breaker_contract.2.1 3 100 [5, 6, 7] rfl (by decide),
   (C8_circuit_breaker_contract.2.2 ⟨2, 100, CBState.opened, 2, 1⟩ 200 rfl (by decide)).1⟩

/-- An element of the `PriorityQueue` of src/ADVANCED_PATTERNS.md: a
`PriorityJob` carries the caller-supplied integer priority; `arrival`
identifies the wrapped `Job` by submission order.  (The Go struct's
`Index` field only mirrors the slice position for `heap.Fix`-style use
and plays no role in `Push`/`Pop`.) -/
structure PriorityJob where
  priority : Int
  arrival : Nat
deriving Repr, DecidableEq, Inhabited

/-- The heap slice `PriorityQueue`, embedded as its length together with
the element found at each index; indices `≥ size` are irrelevant
padding. -/
structure PQ where
  size : Nat
  elem : Nat → PriorityJob

/-- `PriorityQueue.Less(i, j)`: `pq[i].Priority > pq[j].Priority` —
higher priority first. -/
def PQ.Less (pq : PQ) (i j : Nat) : Bool :=
  decide ((pq.elem j).priority < (pq.elem i).priority)

/-- `PriorityQueue.Swap(i, j)`: exchange the elements at `i` and `j`. -/
def PQ.Swap (pq : PQ) (i j : Nat) : PQ :=
  { pq with elem := fun k => if k = i then pq.elem j else if k = j then pq.elem i else pq.elem k }

/-- `PriorityQueue.Push` interface method: append at the end. -/
def PQ.append (pq : PQ) (x : PriorityJob) : PQ :=
  { size := pq.size + 1, elem := fun k => if k = pq.size then x else pq.elem k }

/-- `PriorityQueue.Pop` interface method: remove and return the last
element. -/
def PQ.popLast (pq : PQ) : PriorityJob × PQ :=
  (pq.elem (pq.size - 1), { pq with size := pq.size - 1 })

/-- `up` from Go's container/heap: sift the element at index `j` towards
the root while it is `Less`-before its parent `i = (j-1)/2` (that is,
while it has strictly greater priority); the loop breaks at the root
(`i == j` iff `j == 0`).  The loop index strictly decreases, so any
`fuel ≥ j` makes the recursion identical to the Go loop. -/
def heapUp (fuel : Nat) (pq : PQ) (j : Nat) : PQ :=
  match fuel with
  | 0 => pq
  | fuel + 1 =>
    if j = 0 then pq
    else if pq.Less j ((j - 1) / 2) then
      heapUp fuel (pq.Swap ((j - 1) / 2) j) ((j - 1) / 2)
    else pq

/-- The child index `j` Go's `down` descends to from `i`: the left child
`j1 = 2*i+1`, or the right child `j2 = j1+1` when it exists within `n`
and is `Less`-before the left one. -/
def downChild (pq : PQ) (i n : Nat) : Nat :=
  if decide (2 * i + 2 < n) && pq.Less (2 * i + 2) (2 * i + 1) then 2 * i + 2
  else 2 * i + 1

/-- `down` from Go's container/heap: sift the element at index `i` down
within the first `n` entries, always descending to the `Less`-first
(highest-priority) child; the loop breaks when `2*i+1 ≥ n` (no child) or
the element is not `Less`-after the chosen child.  Each step moves to a
child index `≥ i + 1`, so any `fuel ≥ n - i` makes the recursion
identical to the Go loop.  (Go's `down` also reports whether anything
moved; `heap.Pop` ignores that return value.) -/
def heapDown (fuel : Nat) (pq : PQ) (i n : Nat) : PQ :=
  match fuel with
  | 0 => pq
  | fuel + 1 =>
    if 2 * i + 1 < n then
      if pq.Less (downChild pq i n) i then
        heapDown fuel (pq.Swap i (downChild pq i n)) (downChild pq i n) n
      else pq
    else pq

/-- `heap.Push`: append the new element, then sift it up from the last
index. -/
def heapPush (pq : PQ) (x : PriorityJob) : PQ :=
  heapUp pq.size (pq.append x) pq.size

/-- `heap.Pop`: swap the root with the last element, sift the new root
down over the first `n` entries, then remove and return the last element.
On an empty queue the worker never calls `Pop` (it waits on the condition
variable), modelled by `none`. -/
def heapPop (pq : PQ) : Option (PriorityJob × PQ) :=
  match pq.size with
  | 0 => none
  | n + 1 => some (PQ.popLast (heapDown n (pq.Swap 0 n) 0 n))

/-- The empty `PriorityQueue` built by `NewPriorityWorkerPool`
(`heap.Init` on an empty slice is a no-op). -/
def emptyPQ : PQ := { size := 0, elem := fun _ => default }

/-- `PriorityWorkerPool.Submit` for each listed priority in order, with
arrival numbers `a, a+1, ...`: each submission does
`heap.Push(&pq, &PriorityJob{Job: job, Priority: priority})`. -/
def submitSeq (pq : PQ) (a : Nat) : List Int → PQ
  | [] => pq
  | p :: rest => submitSeq (heapPush pq { priority := p, arrival := a }) (a + 1) rest

/-- Repeated `heap.Pop` by the single worker of `PriorityWorkerPool`
until the queue is empty (`fuel` bounds the number of pops). -/
def popAll (fuel : Nat) (pq : PQ) : List PriorityJob :=
  match fuel with
  | 0 => []
  | fuel + 1 =>
    match heapPop pq with
    | none => []
    | some (x, rest) => x :: popAll fuel rest

/-- Order in which a single worker processes the given priorities when
all jobs are submitted (in the listed order) before the worker starts
draining the queue. -/
def processOrder (prios : List Int) : List PriorityJob :=
  popAll prios.length (submitSeq emptyPQ 0 prios)

/-- The max-heap property of the first `n` entries: every non-root entry
has priority at most its parent's. -/
def IsHeap (pq : PQ) (n : Nat) : Prop :=
  ∀ j, 0 < j → j < n → (pq.elem j).priority ≤ (pq.elem ((j - 1) / 2)).priority

theorem PQ.Swap_elem (pq : PQ) (i j k : Nat) :
    (pq.Swap i j).elem k =
      if k = i then pq.elem j else if k = j then pq.elem i else pq.elem k := rfl

theorem PQ.Less_iff (pq : PQ) (i j : Nat) :
    pq.Less i j = true ↔ (pq.elem j).priority < (pq.elem i).priority := by
  simp [PQ.Less]

theorem PQ.not_Less (pq : PQ) (i j : Nat) (h : pq.Less i j = false) :
    (pq.elem i).priority ≤ (pq.elem j).priority := by
  simp only [PQ.Less, decide_eq_false_iff_not, not_lt] at h
  exact h

theorem heapUp_size (fuel : Nat) : ∀ (pq : PQ) (j : Nat),
    (heapUp fuel pq j).size = pq.size := by
  induction fuel with
  | zero => intro pq j; rfl
  | succ fuel ih =>
    intro pq j
    simp only [heapUp]
    split_ifs with h1 h2
    · rfl
    · exact ih _ _
    · rfl

theorem heapDown_size (fuel : Nat) : ∀ (pq : PQ) (i n : Nat),
    (heapDown fuel pq i n).size = pq.size := by
  induction fuel with
  | zero => intro pq i n; rfl
  | succ fuel ih =>
    intro pq i n
    simp only [heapDown]
    split_ifs with h1 h2
    · exact ih _ _ _
    · rfl
    · rfl

theorem isHeap_root_max (pq : PQ) (n : Nat) (h : IsHeap pq n) :
    ∀ k, k < n → (pq.elem k).priority ≤ (pq.elem 0).priority := by
  intro k
  induction k using Nat.strong_induction_on with
  | _ k ih =>
    intro hk
    rcases Nat.eq_zero_or_pos k with h0 | h0
    · subst h0
      exact le_refl _
    · exact le_trans (h k h0 hk) (ih ((k - 1) / 2) (by omega) (by omega))

/-- Loop invariant of sift-up at index `j`: the heap property holds at
every edge except possibly the one from `j`'s parent to `j`, and `j`'s
children (if any) are already bounded by `j`'s parent. -/
def UpInv (pq : PQ) (n j : Nat) : Prop :=
  (∀ k, 0 < k → k < n → k ≠ j →
    (pq.elem k).priority ≤ (pq.elem ((k - 1) / 2)).priority) ∧
  (0 < j → ∀ c, c < n → (c - 1) / 2 = j →
    (pq.elem c).priority ≤ (pq.elem ((j - 1) / 2)).priority)

theorem upInv_swap (pq : PQ) (n j : Nat) (h0 : 0 < j) (hn : j < n)
    (hls : pq.Less j ((j - 1) / 2) = true) (h : UpInv pq n j) :
    UpInv (pq.Swap ((j - 1) / 2) j) n ((j - 1) / 2) := by
  obtain ⟨h1, h2⟩ := h
  have hij : (j - 1) / 2 < j := by omega
  rw [PQ.Less_iff] at hls
  constructor
  · intro k hk0 hkn hki
    rcases eq_or_ne k j with hkj | hkj
    · subst hkj
      rw [PQ.Swap_elem, PQ.Swap_elem]
      rw [if_neg (by omega), if_pos rfl, if_pos rfl]
      exact le_of_lt hls
    · rw [PQ.Swap_elem, PQ.Swap_elem, if_neg hki, if_neg hkj]
      rcases eq_or_ne ((k - 1) / 2) ((j - 1) / 2) with hp | hp
      · rw [if_pos hp]
        exact le_trans (le_trans (h1 k hk0 hkn hkj) (by rw [hp])) (le_of_lt hls)
      · rw [if_neg hp]
        rcases eq_or_ne ((k - 1) / 2) j with hpj | hpj
        · rw [if_pos hpj]
          exact h2 h0 k hkn hpj
        · rw [if_neg hpj]
          exact h1 k hk0 hkn hkj
  · intro hi0 c hcn hcp
    have hcb : 2 * ((j - 1) / 2) + 1 ≤ c := by omega
    have hpar : ((j - 1) / 2 - 1) / 2 < (j - 1) / 2 := by omega
    have hpi : ((j - 1) / 2 - 1) / 2 ≠ (j - 1) / 2 := by omega
    have hpj : ((j - 1) / 2 - 1) / 2 ≠ j := by omega
    have hii : (pq.elem ((j - 1) / 2)).priority ≤
        (pq.elem (((j - 1) / 2 - 1) / 2)).priority :=
      h1 ((j - 1) / 2) hi0 (by omega) (by omega)
    rw [PQ.Swap_elem, PQ.Swap_elem, if_neg hpi, if_neg hpj]
    rcases eq_or_ne c j with hcj | hcj
    · subst hcj
      rw [if_neg (by omega), if_pos rfl]
      exact hii
    · rw [if_neg (by omega : c ≠ (j - 1) / 2), if_neg hcj]
      have hc0 : 0 < c := by omega
      exact le_trans (le_trans (h1 c hc0 hcn hcj) (by rw [hcp])) hii

theorem heapUp_correct (fuel : Nat) : ∀ (pq : PQ) (j n : Nat), j ≤ fuel → j < n →
    UpInv pq n j → IsHeap (heapUp fuel pq j) n := by
  induction fuel with
  | zero =>
    intro pq j n hf hn h
    have hj : j = 0 := Nat.le_zero.mp hf
    subst hj
    intro k hk0 hkn
    exact h.1 k hk0 hkn (by omega)
  | succ fuel ih =>
    intro pq j n hf hn h
    simp only [heapUp]
    split_ifs with h1 h2
    · subst h1
      intro k hk0 hkn
      exact h.1 k hk0 hkn (by omega)
    · have h0 : 0 < j := by omega
      exact ih (pq.Swap ((j - 1) / 2) j) ((j - 1) / 2) n (by omega) (by omega)
        (upInv_swap pq n j h0 hn h2 h)
    · intro k hk0 hkn
      rcases eq_or_ne k j with hkj | hkj
      · subst hkj
        exact PQ.not_Less pq k ((k - 1) / 2) (Bool.not_eq_true _ ▸ h2)
      · exact h.1 k hk0 hkn hkj

theorem heapPush_size (pq : PQ) (x : PriorityJob) :
    (heapPush pq x).size = pq.size + 1 := by
  simp [heapPush, heapUp_size, PQ.append]

theorem upInv_append (pq : PQ) (x : PriorityJob) (h : IsHeap pq pq.size) :
    UpInv (pq.append x) (pq.size + 1) pq.size := by
  constructor
  · intro k hk0 hkn hkj
    have hk : k < pq.size := by omega
    have e1 : (pq.append x).elem k = pq.elem k := by
      simp only [PQ.append]
      rw [if_neg (by omega)]
    have e2 : (pq.append x).elem ((k - 1) / 2) = pq.elem ((k - 1) / 2) := by
      simp only [PQ.append]
      rw [if_neg (by omega)]
    rw [e1, e2]
    exact h k hk0 hk
  · intro h0 c hc hcp
    exact absurd hcp (by omega)

theorem heapPush_isHeap (pq : PQ) (x : PriorityJob) (h : IsHeap pq pq.size) :
    IsHeap (heapPush pq x) (pq.size + 1) :=
  heapUp_correct pq.size (pq.append x) pq.size (pq.size + 1) (le_refl _)
    (by omega) (upInv_append pq x h)

theorem downChild_parent (pq : PQ) (i n : Nat) :
    (downChild pq i n - 1) / 2 = i := by
  unfold downChild
  split_ifs <;> omega

theorem downChild_lt (pq : PQ) (i n : Nat) (h : 2 * i + 1 < n) :
    downChild pq i n < n := by
  unfold downChild
  split_ifs with hc
  · rw [Bool.and_eq_true, decide_eq_true_eq] at hc
    exact hc.1
  · exact h

theorem downChild_gt (pq : PQ) (i n : Nat) : i < downChild pq i n := by
  unfold downChild
  split_ifs <;> omega

theorem downChild_max (pq : PQ) (i n : Nat) (h : 2 * i + 1 < n) :
    ∀ c, 0 < c → c < n → (c - 1) / 2 = i →
      (pq.elem c).priority ≤ (pq.elem (downChild pq i n)).priority := by
  intro c hc0 hc hcp
  have hcases : c = 2 * i + 1 ∨ c = 2 * i + 2 := by omega
  unfold downChild
  split_ifs with hcond
  · rw [Bool.and_eq_true, decide_eq_true_eq, PQ.Less_iff] at hcond
    rcases hcases with hc1 | hc2
    · rw [hc1]
      exact le_of_lt hcond.2
    · rw [hc2]
  · rcases hcases with hc1 | hc2
    · rw [hc1]
    · rw [Bool.and_eq_true, not_and_or] at hcond
      rcases hcond with hcn | hcl
      · rw [decide_eq_true_eq] at hcn
        exact absurd (hc2 ▸ hc) hcn
      · rw [hc2]
        exact PQ.not_Less pq (2 * i + 2) (2 * i + 1) (Bool.not_eq_true _ ▸ hcl)

/-- Loop invariant of sift-down at index `i`: the heap property holds at
every edge except possibly those from `i` to its children, and `i`'s
children are already bounded by `i`'s parent (when `i` is not the
root). -/
def DownInv (pq : PQ) (n i : Nat) : Prop :=
  (∀ k, 0 < k → k < n → (k - 1) / 2 ≠ i →
    (pq.elem k).priority ≤ (pq.elem ((k - 1) / 2)).priority) ∧
  (0 < i → ∀ c, c < n → (c - 1) / 2 = i →
    (pq.elem c).priority ≤ (pq.elem ((i - 1) / 2)).priority)

theorem downInv_swap (pq : PQ) (n i : Nat) (hj1 : 2 * i + 1 < n)
    (hls : pq.Less (downChild pq i n) i = true) (h : DownInv pq n i) :
    DownInv (pq.Swap i (downChild pq i n)) n (downChild pq i n) := by
  obtain ⟨h1, h2⟩ := h
  have hpar := downChild_parent pq i n
  have hn := downChild_lt pq i n hj1
  have hgt := downChild_gt pq i n
  have hmax := downChild_max pq i n hj1
  rw [PQ.Less_iff] at hls
  constructor
  · intro k hk0 hkn hknc
    rcases eq_or_ne k i with hki | hki
    · have hkp : (k - 1) / 2 ≠ i := by omega
      have hkc : (k - 1) / 2 ≠ downChild pq i n := by omega
      rw [PQ.Swap_elem, PQ.Swap_elem, if_pos hki, if_neg hkp, if_neg hkc, hki]
      exact h2 (hki ▸ hk0) (downChild pq i n) hn hpar
    · rcases eq_or_ne k (downChild pq i n) with hkc | hkc
      · subst hkc
        rw [PQ.Swap_elem, PQ.Swap_elem, if_neg hki, if_pos rfl, hpar, if_pos rfl]
        exact le_of_lt hls
      · rw [PQ.Swap_elem, PQ.Swap_elem, if_neg hki, if_neg hkc]
        rcases eq_or_ne ((k - 1) / 2) i with hp | hp
        · rw [if_pos hp]
          exact hmax k hk0 hkn hp
        · rw [if_neg hp, if_neg hknc]
          exact h1 k hk0 hkn hp
  · intro hc0 c hcn hcp
    have hcb : 2 * downChild pq i n + 1 ≤ c := by omega
    rw [PQ.Swap_elem, PQ.Swap_elem, if_neg (by omega), if_neg (by omega),
      hpar, if_pos rfl]
    have hpc : (c - 1) / 2 ≠ i := by omega
    have := h1 c (by omega) hcn hpc
    rw [hcp] at this
    exact this

theorem heapDown_correct (fuel : Nat) : ∀ (pq : PQ) (i n : Nat), n - i ≤ fuel →
    DownInv pq n i → IsHeap (heapDown fuel pq i n) n := by
  induction fuel with
  | zero =>
    intro pq i n hf h
    intro k hk0 hkn
    by_cases hpk : (k - 1) / 2 = i
    · exfalso
      omega
    · exact h.1 k hk0 hkn hpk
  | succ fuel ih =>
    intro pq i n hf h
    simp only [heapDown]
    split_ifs with h1 h2
    · have hn := downChild_lt pq i n h1
      have hgt := downChild_gt pq i n
      exact ih _ _ _ (by omega) (downInv_swap pq n i h1 h2 h)
    · intro k hk0 hkn
      by_cases hpk : (k - 1) / 2 = i
      · rw [hpk]
        exact le_trans (downChild_max pq i n h1 k hk0 hkn hpk)
          (PQ.not_Less pq (downChild pq i n) i (Bool.not_eq_true _ ▸ h2))
      · exact h.1 k hk0 hkn hpk
    · intro k hk0 hkn
      by_cases hpk : (k - 1) / 2 = i
      · exact absurd hkn (by omega)
      · exact h.1 k hk0 hkn hpk

theorem heapDown_elem_ge (fuel : Nat) : ∀ (pq : PQ) (i n k : Nat), n ≤ k →
    (heapDown fuel pq i n).elem k = pq.elem k := by
  induction fuel with
  | zero => intro pq i n k hk; rfl
  | succ fuel ih =>
    intro pq i n k hk
    simp only [heapDown]
    split_ifs with h1 h2
    · have hn := downChild_lt pq i n h1
      rw [ih _ _ _ _ hk, PQ.Swap_elem, if_neg (by omega), if_neg (by omega)]
    · rfl
    · rfl

theorem heapPop_spec (pq : PQ) (h : IsHeap pq pq.size) (hpos : 0 < pq.size) :
    (heapPop pq).map Prod.fst = some (pq.elem 0) ∧
    ∃ rest, heapPop pq = some (pq.elem 0, rest) ∧ rest.size = pq.size - 1 ∧
      IsHeap rest rest.size := by
  obtain ⟨n, hn⟩ : ∃ n, pq.size = n + 1 := ⟨pq.size - 1, by omega⟩
  have hpop : heapPop pq = some (PQ.popLast (heapDown n (pq.Swap 0 n) 0 n)) := by
    simp only [heapPop, hn]
  have hsz : (heapDown n (pq.Swap 0 n) 0 n).size = n + 1 := by
    rw [heapDown_size]
    exact hn
  have hfst : (heapDown n (pq.Swap 0 n) 0 n).elem
      ((heapDown n (pq.Swap 0 n) 0 n).size - 1) = pq.elem 0 := by
    rw [hsz]
    simp only [Nat.add_sub_cancel]
    rw [heapDown_elem_ge n (pq.Swap 0 n) 0 n n (le_refl n), PQ.Swap_elem]
    by_cases h0 : n = 0
    · rw [if_pos h0, h0]
    · rw [if_neg h0, if_pos rfl]
  have hpair : PQ.popLast (heapDown n (pq.Swap 0 n) 0 n) =
      (pq.elem 0, (PQ.popLast (heapDown n (pq.Swap 0 n) 0 n)).2) := by
    rw [PQ.popLast, hfst]
  have hrsz : (PQ.popLast (heapDown n (pq.Swap 0 n) 0 n)).2.size = pq.size - 1 := by
    show (heapDown n (pq.Swap 0 n) 0 n).size - 1 = pq.size - 1
    rw [hsz, hn]
  have hdinv : DownInv (pq.Swap 0 n) n 0 := by
    constructor
    · intro k hk0 hkn hpk
      rw [PQ.Swap_elem, PQ.Swap_elem, if_neg (by omega), if_neg (by omega),
        if_neg hpk, if_neg (by omega)]
      exact h k hk0 (by omega)
    · intro h0
      exact absurd h0 (by omega)
  have hheap : IsHeap (heapDown n (pq.Swap 0 n) 0 n) n :=
    heapDown_correct n (pq.Swap 0 n) 0 n (by omega) hdinv
  refine ⟨?_, (PQ.popLast (heapDown n (pq.Swap 0 n) 0 n)).2, ?_, hrsz, ?_⟩
  · rw [hpop, hpair]
    rfl
  · rw [hpop, hpair]
  · rw [hrsz, hn]
    simp only [Nat.add_sub_cancel]
    intro k hk0 hkn
    exact hheap k hk0 hkn

/-- The `PriorityQueue` states reachable in `PriorityWorkerPool`: the
empty initial queue, a `Submit`'s `heap.Push`, and a worker's
`heap.Pop`. -/
inductive PQReach : PQ → Prop
  | empty : PQReach emptyPQ
  | push (pq : PQ) (x : PriorityJob) : PQReach pq → PQReach (heapPush pq x)
  | pop (pq : PQ) (x : PriorityJob) (rest : PQ) : PQReach pq →
      heapPop pq = some (x, rest) → PQReach rest

theorem pqReach_isHeap (pq : PQ) (h : PQReach pq) : IsHeap pq pq.size := by
  induction h with
  | empty =>
    intro j hj0 hj
    exact absurd hj (by simp [emptyPQ])
  | push pq x hr ih =>
    rw [heapPush_size]
    exact heapPush_isHeap pq x ih
  | pop pq x rest hr hpop ih =>
    have hpos : 0 < pq.size := by
      by_contra h0
      have hz : pq.size = 0 := by omega
      simp [heapPop, hz] at hpop
    obtain ⟨rest', heq, _, hih⟩ := (heapPop_spec pq ih hpos).2
    rw [hpop] at heq
    obtain ⟨-, hrr⟩ := Prod.mk.injEq .. ▸ Option.some.injEq .. ▸ heq
    rw [hrr]
    exact hih

/-- C9 counterexample: three jobs of equal priority 1 submitted in
arrival order 0, 1, 2 are processed by the single worker in order
0, 2, 1 — the binary heap of container/heap is not stable, so ties
between equal priorities are not broken by arrival order. -/
theorem C9_ties_not_broken_by_arrival :
    (processOrder [1, 1, 1]).map PriorityJob.arrival = [0, 2, 1] ∧
    (processOrder [1, 1, 1]).map PriorityJob.arrival ≠ [0, 1, 2] := by
  decide

/-- C9 amended: in every `PriorityQueue` state reachable by `Submit`
pushes and worker pops, `heap.Pop` returns the root, which carries a
maximal priority among all queued jobs — but ties between equal
priorities are broken by heap order, not arrival order.  In particular,
jobs with the distinct priorities [1,5,3] submitted in that order are
processed by a single worker in the order [5,3,1]. -/
theorem C9_pop_returns_max_priority :
    (∀ pq : PQ, PQReach pq → 0 < pq.size →
      (heapPop pq).map Prod.fst = some (pq.elem 0) ∧
      ∀ k, k < pq.size → (pq.elem k).priority ≤ (pq.elem 0).priority) ∧
    (processOrder [1, 5, 3]).map PriorityJob.priority = [5, 3, 1] := by
  constructor
  · intro pq hr hpos
    have hih := pqReach_isHeap pq hr
    exact ⟨(heapPop_spec pq hih hpos).1, isHeap_root_max pq pq.size hih⟩
  · decide

theorem C9_pop_returns_max_priority_witness :
    (heapPop (heapPush emptyPQ { priority := 5, arrival := 0 })).map Prod.fst =
      some ((heapPush emptyPQ { priority := 5, arrival := 0 }).elem 0) ∧
    ∀ k, k < (heapPush emptyPQ { priority := 5, arrival := 0 }).size →
      ((heapPush emptyPQ { priority := 5, arrival := 0 }).elem k).priority ≤
        ((heapPush emptyPQ { priority := 5, arrival := 0 }).elem 0).priority :=
  C9_pop_returns_max_priority.1 (heapPush emptyPQ { priority := 5, arrival := 0 })
    (PQReach.push emptyPQ { priority := 5, arrival := 0 } PQReach.empty) (by decide)

end FastGo
